import Mathlib

/-!
Verification development for the `go-enumerator` code generator
(repository `a-jentleman/go-enumerator`, file `internal/cmd/root.go`).

The Go program discovers the constants of one named type, resolves each
constant's display string (trailing-comment override or naming-strategy
transform), validates uniqueness, and synthesizes enum-like methods
(String, Bytes, Defined, Scan, Next, MarshalText, UnmarshalText) plus a
compile-time staleness guard.

This file is a shallow embedding of that program: each Go function used
by the claims is translated into an executable Lean definition, and the
semantics of the *generated* methods (which are `switch` statements over
the member list) are expressed as Lean functions of the member list.
Go strings are modelled as Lean `String` (sequences of Unicode scalar
values; Go source identifiers and comment texts are valid UTF-8, and
byte-level views are taken explicitly through `utf8Bytes`).
-/

namespace GoEnumerator

/-- Exact constant values as carried by `go/constant`: the program only
ever sees `constant.Int` or `constant.String` kinds (anything else makes
`generateTypeAssertions` panic). -/
inductive GoVal : Type
  | int (i : Int)
  | str (s : String)
deriving DecidableEq

/-- Go `strconv.Quote`-style rendering used by `constant.Value.ExactString`
for string constants: the body between quotes.  For the claims below only
injectivity of the rendering on each kind matters, so escaping is modelled
by keeping the string itself between the quote marks. -/
def exactString : GoVal → String
  | .int i => toString i
  | .str s => "\"" ++ s ++ "\""

/-- Unicode White_Space code points, exactly the set accepted by Go's
`unicode.IsSpace`. -/
def goIsSpace (c : Char) : Bool :=
  let n := c.toNat
  (0x09 ≤ n && n ≤ 0x0D) || n == 0x20 || n == 0x85 || n == 0xA0 ||
  n == 0x1680 || (0x2000 ≤ n && n ≤ 0x200A) || n == 0x2028 || n == 0x2029 ||
  n == 0x202F || n == 0x205F || n == 0x3000

/-- Model of Go `strings.TrimLeftFunc(s, unicode.IsSpace)`. -/
def goTrimLeft (s : String) : String :=
  ⟨s.data.dropWhile goIsSpace⟩

/-- Model of Go `strings.TrimRightFunc(s, unicode.IsSpace)`. -/
def goTrimRight (s : String) : String :=
  ⟨(s.data.reverse.dropWhile goIsSpace).reverse⟩

/-- UTF-8 encoding of one Unicode scalar value, as a list of byte values.
Standard 1-4 byte encoding; Lean `Char` carries the validity invariant. -/
def utf8EncodeCharNat (c : Char) : List Nat :=
  let n := c.toNat
  if n < 0x80 then [n]
  else if n < 0x800 then [0xC0 + n / 64, 0x80 + n % 64]
  else if n < 0x10000 then [0xE0 + n / 4096, 0x80 + (n / 64) % 64, 0x80 + n % 64]
  else [0xF0 + n / 262144, 0x80 + (n / 4096) % 64, 0x80 + (n / 64) % 64, 0x80 + n % 64]

/-- The UTF-8 bytes of a string (the byte-level view of a Go string that
holds valid UTF-8, e.g. any Go source literal of identifier or comment
text). -/
def utf8Bytes (s : String) : List Nat :=
  (s.data.map utf8EncodeCharNat).flatten

/-- One comment group record as consumed by `findStringInLineComment`:
its start position (byte offset), the source line of that position, and
its `(*ast.CommentGroup).Text()` content. -/
structure Comment : Type where
  pos : Nat
  line : Nat
  text : String
deriving DecidableEq

/-- A constant binding as the generator carries it: identifier, exact
value, declaration position (byte offset) and source line.
(`types.Const` restricted to the fields `root.go` reads.) -/
structure ConstBinding : Type where
  name : String
  val : GoVal
  pos : Nat
  line : Nat
deriving DecidableEq

/-- Model of `findStringInLineComment` (root.go lines 414-447), specialised
to the single enclosing `*ast.GenDecl` found on the `PathEnclosingInterval`
path, whose start offset is `gdPos`.  Scans the file's comment groups in
file order; skips groups starting before the declaration group, groups on
a different line than the constant, and groups whose trimmed text is
empty; on the first remaining group it returns the trimmed text together
with a REPLACEMENT constant built by
`types.NewConst(pos, pkg, name, type, constant.MakeString(trimmedText))`,
i.e. a constant whose value is the comment text, not the source value. -/
def findStringInLineComment (c : ConstBinding) (gdPos : Nat) :
    List Comment → Option (String × ConstBinding)
  | [] => none
  | cm :: rest =>
    if cm.pos < gdPos then findStringInLineComment c gdPos rest
    else if cm.line ≠ c.line then findStringInLineComment c gdPos rest
    else
      let leftTrimmed := goTrimLeft cm.text
      let bothTrimmed := goTrimRight leftTrimmed
      if bothTrimmed = "" then findStringInLineComment c gdPos rest
      else
        some (bothTrimmed,
          { name := c.name
            val := .str bothTrimmed
            pos := c.pos + (utf8Bytes cm.text).length - (utf8Bytes leftTrimmed).length
            line := c.line })

/-- The five case transforms of the external `go-strcase` library, passed
abstractly: the dispatch in `findConstantsOfType` (root.go lines 359-372)
only chooses which transform to apply, the transforms themselves are an
external dependency. -/
structure CaseTransforms : Type where
  lowerCamel : String → String
  upperCamel : String → String
  snake : String → String
  upperSnake : String → String
  kebab : String → String

/-- Model of the `switch namingStrategy` dispatch in `findConstantsOfType`
(root.go lines 359-372): five recognized cased strategies, everything else
(including `none`) falls to the default branch which keeps the identifier
unchanged. -/
def applyNamingStrategy (tr : CaseTransforms) (strategy name : String) : String :=
  if strategy = "camelCase" then tr.lowerCamel name
  else if strategy = "PascalCase" then tr.upperCamel name
  else if strategy = "snake_case" then tr.snake name
  else if strategy = "UPPER_SNAKE_CASE" then tr.upperSnake name
  else if strategy = "kebab-case" then tr.kebab name
  else name

/-- The six strategy names recognized by the command-line surface
(root.go lines 34-41). -/
def recognizedStrategies : List String :=
  ["none", "camelCase", "PascalCase", "snake_case", "UPPER_SNAKE_CASE", "kebab-case"]

/-- Display-string resolution for one constant, as performed inline in
`findConstantsOfType` (root.go lines 352-373): the override comment wins
when found, otherwise the naming strategy is applied to the identifier.
Returns the display string and the override flag. -/
def resolveDisplay (tr : CaseTransforms) (strategy : String) (c : ConstBinding)
    (gdPos : Nat) (comments : List Comment) : String × Bool :=
  match findStringInLineComment c gdPos comments with
  | some (s, _) => (s, true)
  | none => (applyNamingStrategy tr strategy c.name, false)

/-- A named constant as handed to code synthesis: identifier, the value of
the identifier in the target package (what a generated `case Name:` or
`return Name` dispatches on), and the resolved display string.  `V` is
`Int` for integral kinds and `String` for text kinds. -/
structure Member (V : Type) : Type where
  name : String
  val : V
  str : String
deriving DecidableEq

/-- Semantics of the generated `Defined()` method (root.go lines 634-646):
the emitted `switch` has one case literal per member, printed with
`c.Const.Val().ExactString()`, so the receiver is defined exactly when its
value equals one of the carried constant values. -/
def definedSem (cs : List ConstBinding) (v : GoVal) : Bool :=
  cs.any (fun c => decide (c.val = v))

/-- Byte-prefix test: `bytesPref w u` holds when `w` is a prefix of `u`. -/
def bytesPref : List Nat → List Nat → Bool
  | [], _ => true
  | _ :: _, [] => false
  | a :: as, b :: bs => a == b && bytesPref as bs

/-- Compile-time staleness guard for a text-kind member (root.go lines
556-564): for each byte `b` at index `i` of the carried value the code
emits `_ = x[b - Name[i]]` with `x` of length 1, which compiles exactly
when `i` indexes into the source constant `Name` and the bytes agree,
i.e. when the carried value's bytes are a prefix of the source value's
bytes. -/
def guardCompiles (sourceVal carriedVal : String) : Bool :=
  bytesPref (utf8Bytes carriedVal) (utf8Bytes sourceVal)

/-- Semantics of the generated `Next()` method (root.go lines 595-605):
one case per member in declared order returning the following member
(indices taken mod `n`), and a default case returning the first member.
The generated function only compiles for a non-empty member list (with no
members the switch has no default and the function lacks a return). -/
def genNext {V : Type} [DecidableEq V] (cs : List (Member V)) (h : cs ≠ []) (v : V) : V :=
  match cs.findIdx? (fun c => decide (c.val = v)) with
  | some i => (cs.getD ((i + 1) % cs.length) (cs.head h)).val
  | none => (cs.head h).val

/-- Semantics of the generated `String()` method for integral kinds
(root.go lines 670-678): dispatch on the member values to the display
strings, with a `fmt.Sprintf("TypeName(%d)", v)` fallback. -/
def genStringInt (tn : String) (cs : List (Member Int)) (v : Int) : String :=
  match cs.find? (fun c => decide (c.val = v)) with
  | some c => c.str
  | none => tn ++ "(" ++ toString v ++ ")"

/-- The rune sequence emitted for one member by the integral-kind
`Bytes()` generator (root.go lines 706-712): `utf8.DecodeRuneInString`
yields the scalar values of the display string in order, and the loop
stops at the first replacement character. -/
def bytesCaseRunes (s : String) : List Char :=
  s.data.takeWhile (fun ch => decide (ch.toNat ≠ 0xFFFD))

/-- Semantics of the generated `Bytes()` method for integral kinds
(root.go lines 702-717): each case returns a `[]byte{...}` composite
literal holding one element per rune of the display string — each rune is
emitted as a single byte literal (`jen.LitRune`), so the byte produced is
the rune's scalar value, not its UTF-8 encoding; the fallback mirrors
`String()` converted to bytes. -/
def genBytesInt (tn : String) (cs : List (Member Int)) (v : Int) : List Nat :=
  match cs.find? (fun c => decide (c.val = v)) with
  | some c => (bytesCaseRunes c.str).map Char.toNat
  | none => utf8Bytes (tn ++ "(" ++ toString v ++ ")")

/-- A `[]byte{...}` literal only compiles when every element constant fits
in a byte; the integral-kind `Bytes()` cases therefore compile exactly
when every emitted rune value is at most 255. -/
def bytesCasesCompile (cs : List (Member Int)) : Bool :=
  cs.all (fun c => (bytesCaseRunes c.str).all (fun ch => ch.toNat ≤ 255))

/-- The `anyOverrides` flag computed in `generateEnumCode` (root.go lines
479-487): set when some member's display string differs from its
identifier. -/
def anyOverride (cs : List (Member String)) : Bool :=
  cs.any (fun c => decide (c.str ≠ c.name))

/-- Semantics of the generated `String()` method for text kinds (root.go
lines 652-668): when any override exists, a switch over the members whose
display string differs from their identifier returns the display string,
everything else falls through to `string(receiver)` — the receiver's raw
value. -/
def genStringStrK (cs : List (Member String)) (v : String) : String :=
  if anyOverride cs then
    match (cs.filter (fun c => decide (c.name ≠ c.str))).find? (fun c => decide (c.val = v)) with
    | some c => c.str
    | none => v
  else v

/-- Semantics of the generated `Bytes()` method for text kinds (root.go
lines 686-700): same dispatch as `String()`, returning `[]byte(display)`
for dispatched members and `[]byte(receiver)` otherwise; the result is
the UTF-8 byte view of the chosen string. -/
def genBytesStrK (cs : List (Member String)) (v : String) : List Nat :=
  if anyOverride cs then
    match (cs.filter (fun c => decide (c.name ≠ c.str))).find? (fun c => decide (c.val = v)) with
    | some c => utf8Bytes c.str
    | none => utf8Bytes v
  else utf8Bytes v

/-- The error produced by the generated `UnmarshalText` (root.go line
736): `fmt.Errorf("failed to parse value %v into %T", x, *receiver)`
carries the raw input bytes and the receiver's type name. -/
structure UnmarshalErr : Type where
  input : List Nat
  typeName : String
deriving DecidableEq

/-- Semantics of the generated `MarshalText` (root.go lines 721-726):
`return receiver.Bytes(), nil` — always succeeds with the byte form. -/
def genMarshalTextStrK (cs : List (Member String)) (v : String) :
    Except UnmarshalErr (List Nat) :=
  .ok (genBytesStrK cs v)

/-- Semantics of the generated `UnmarshalText` for text kinds (root.go
lines 728-739): `switch string(input)` against the display-string
literals in member order; on match assign the member constant (its raw
value), otherwise fail with the error carrying input and type name.
`string(b)` in Go is a byte-identity cast, so a case matches exactly when
the input bytes equal the UTF-8 bytes of the display literal. -/
def genUnmarshalTextStrK (tn : String) (cs : List (Member String)) (b : List Nat) :
    Except UnmarshalErr String :=
  match cs.find? (fun c => decide (utf8Bytes c.str = b)) with
  | some c => .ok c.val
  | none => .error ⟨b, tn⟩

/-- Generator-time errors surfaced by `generateEnumCode` and the run
entry point (root.go lines 137-141 and 493-507). -/
inductive GenErr : Type
  | dupString (s : String)
  | dupName (s : String)
  | strCollides (s : String)
  | dupValue (s : String)
  | noConstants (typeName : String)
deriving DecidableEq

/-- A named constant as seen by the uniqueness validator: identifier,
display string, and the `ExactString` rendering of the carried value
(root.go lines 489-491). -/
structure VConst : Type where
  name : String
  str : String
  repr : String
deriving DecidableEq

/-- The validation loop of `generateEnumCode` (root.go lines 484-512),
with the three seen-sets accumulated as lists.  The four membership tests
appear in the source's order: duplicate display string, duplicate
identifier, display string colliding with an already-seen identifier,
duplicate value rendering. -/
def validateLoop : List VConst → List String → List String → List String → Except GenErr Unit
  | [], _, _, _ => .ok ()
  | c :: rest, strs, names, vals =>
    if c.str ∈ strs then .error (.dupString c.str)
    else if c.name ∈ names then .error (.dupName c.name)
    else if c.str ∈ names then .error (.strCollides c.str)
    else if c.repr ∈ vals then .error (.dupValue c.repr)
    else validateLoop rest (c.str :: strs) (c.name :: names) (c.repr :: vals)

/-- Uniqueness validation over the ordered member sequence, starting from
empty seen-sets. -/
def validateMembers (cs : List VConst) : Except GenErr Unit :=
  validateLoop cs [] [] []

/-- Model of `generateEnumCode` (root.go lines 465-548) at the level the
claims need: validation runs first and any failure aborts with no file;
on success synthesis is a pure function of the validated sequence, so the
produced file is represented by that sequence. -/
def generateEnumCode (cs : List VConst) : Except GenErr (List VConst) :=
  match validateMembers cs with
  | .error e => .error e
  | .ok _ => .ok cs

/-- Model of the run entry point after constant discovery (root.go lines
137-145): an empty constant set fails with an error naming the type and
synthesis is reached only on a non-empty set. -/
def runAfterDiscovery (typeName : String) (vs : List VConst) : Except GenErr (List VConst) :=
  if vs.length = 0 then .error (.noConstants typeName)
  else generateEnumCode vs

/-- One symbol-table binding as scanned by `findTypeDeclByPosition`: the
file and line of its declaration position, whether it is a
`*types.TypeName`, and an identity tag.  `sameFile` (root.go lines
450-462, inode comparison) is modelled as file-name equality. -/
structure DefObj : Type where
  file : String
  line : Nat
  isType : Bool
  id : Nat
deriving DecidableEq

/-- Loop state of `findTypeDeclByPosition`: the current candidate type,
the last binding accepted as closest, and the line of the current
candidate (initially `math.MaxInt32`). -/
structure LocState : Type where
  ret : Option DefObj
  closestObject : Option DefObj
  closest : Nat
deriving DecidableEq

/-- Initial `closest` value, `math.MaxInt32`. -/
def maxInt32 : Nat := 2147483647

/-- One iteration of the scan in `findTypeDeclByPosition` (root.go lines
252-276): skip bindings in other files, before the requested line, or
beyond the current closest line; otherwise record the binding as closest
and keep it as the candidate only when it is a named type (note that
`closest` is lowered only for named types). -/
def locStep (f : String) (line : Nat) (s : LocState) (o : DefObj) : LocState :=
  if o.file ≠ f then s
  else if o.line < line ∨ s.closest < o.line then s
  else if o.isType then ⟨some o, some o, o.line⟩
  else ⟨none, some o, s.closest⟩

/-- Resolution failures of the type locator (root.go lines 278-283). -/
inductive LocErr : Type
  | notNamedType (o : DefObj)
  | noDecl
deriving DecidableEq

/-- The return path of `findTypeDeclByPosition` (root.go lines 278-285):
a held candidate is returned; otherwise the last accepted closest binding
is reported as a non-type, or the total absence of one as failure. -/
def locFinish (s : LocState) : Except LocErr DefObj :=
  match s.ret with
  | some t => .ok t
  | none =>
    match s.closestObject with
    | some o => .error (.notNamedType o)
    | none => .error .noDecl

/-- Model of `findTypeDeclByPosition` (root.go lines 248-286).  The Go
code ranges over the `info.Defs` map, whose iteration order is
unspecified; the model takes the scan order as the list order. -/
def findTypeDeclByPosition (f : String) (line : Nat) (objs : List DefObj) :
    Except LocErr DefObj :=
  locFinish (objs.foldl (locStep f line) ⟨none, none, maxInt32⟩)

/-- A discovered constant together with the (file name, byte offset) of
its original declaration position, as used by the sort in
`findConstantsOfType` (root.go lines 388-396). -/
structure DiscConst : Type where
  name : String
  file : String
  off : Nat
deriving DecidableEq

/-- The comparator passed to `sort.Slice` (root.go lines 390-396):
strictly less by file name, ties broken by byte offset.  Go compares
strings byte-lexicographically, which on valid UTF-8 agrees with the
scalar-value lexicographic order of Lean strings. -/
def goPosLess (a b : DiscConst) : Prop :=
  a.file < b.file ∨ (a.file = b.file ∧ a.off < b.off)

/-- The lexicographic sort key of a discovered constant. -/
def posKey (c : DiscConst) : String ×ₗ Nat := toLex (c.file, c.off)

instance : DecidableRel goPosLess := fun _ _ => by
  unfold goPosLess; infer_instance

/-- The non-strict order in which `sort.Slice` leaves the slice: `a` may
precede `b` exactly when `b` is not strictly less than `a`. -/
def sortLE (a b : DiscConst) : Prop := ¬ goPosLess b a

instance : DecidableRel sortLE := fun _ _ => by
  unfold sortLE; infer_instance

/-- Model of the `sort.Slice` call in `findConstantsOfType`: the standard
library sorts the slice into an order where no later element is strictly
less than an earlier one; the model realises that contract with a sorting
function over the source's comparator. -/
def sortConstants (cs : List DiscConst) : List DiscConst :=
  List.insertionSort sortLE cs

/-- Ascending position order as the spec states it: by file name, then by
byte offset. -/
def posLE (a b : DiscConst) : Prop :=
  a.file < b.file ∨ (a.file = b.file ∧ a.off ≤ b.off)

instance {ε α : Type} [DecidableEq ε] [DecidableEq α] : DecidableEq (Except ε α) := fun x y =>
  match x, y with
  | .ok a, .ok b =>
    if h : a = b then .isTrue (by rw [h]) else .isFalse (by simp [h])
  | .ok _, .error _ => .isFalse (by simp)
  | .error _, .ok _ => .isFalse (by simp)
  | .error e, .error f =>
    if h : e = f then .isTrue (by rw [h]) else .isFalse (by simp [h])

/-- Identity case transforms, for instantiating concrete scenarios. -/
def idTransforms : CaseTransforms :=
  ⟨id, id, id, id, id⟩

/-- Pairwise condition under which validation succeeds: distinct
identifiers, distinct display strings, distinct value renderings, and no
display string equal to the identifier of an EARLIER member (`a` is the
earlier member, `b` the later one). -/
def validOK (a b : VConst) : Prop :=
  a.name ≠ b.name ∧ a.str ≠ b.str ∧ a.repr ≠ b.repr ∧ b.str ≠ a.name

instance (a b : VConst) : Decidable (validOK a b) := by
  unfold validOK; infer_instance

/-- The spec-side selection rule for the override comment (spec section
4.3 as the claim reads it): the first comment in file order that starts
at or after the group start, lies on the constant's line, and has
non-empty trimmed text. -/
def firstUsableComment (c : ConstBinding) (gdPos : Nat) (cms : List Comment) :
    Option Comment :=
  cms.find? (fun cm =>
    decide (gdPos ≤ cm.pos) && decide (cm.line = c.line) &&
    decide (goTrimRight (goTrimLeft cm.text) ≠ ""))

/-! ## Theorems -/

/-- Helper: the override scan is the first comment at or after the group
start, on the constant's line, with non-empty trimmed text; it returns
that comment's trimmed text and a constant whose value has been replaced
by that text. -/
theorem findStringInLineComment_eq_find (c : ConstBinding) (gdPos : Nat)
    (cms : List Comment) :
    findStringInLineComment c gdPos cms =
      (firstUsableComment c gdPos cms).map (fun cm =>
        (goTrimRight (goTrimLeft cm.text),
          { name := c.name
            val := .str (goTrimRight (goTrimLeft cm.text))
            pos := c.pos + (utf8Bytes cm.text).length - (utf8Bytes (goTrimLeft cm.text)).length
            line := c.line })) := by
  induction cms with
  | nil => rfl
  | cons cm rest ih =>
    unfold findStringInLineComment firstUsableComment
    unfold firstUsableComment at ih
    rw [List.find?_cons]
    by_cases h1 : cm.pos < gdPos
    · have hp : ¬ gdPos ≤ cm.pos := by omega
      simp [h1, hp, ih]
    · by_cases h2 : cm.line = c.line
      · by_cases h3 : goTrimRight (goTrimLeft cm.text) = ""
        · have hp : ¬ gdPos ≤ cm.pos → False := by omega
          simp [h1, h2, h3, ih]
        · have hp : gdPos ≤ cm.pos := by omega
          simp [h1, h2, h3, hp]
      · simp [h1, h2, ih]

/-- C1: the claim says resolving an override comment changes only the
display string, never the raw value carried to validation, the
definedness dispatch, and the staleness guard.  The code instead replaces
the carried constant with one whose value IS the comment text
(root.go lines 440-443).  Evaluated at the repository's own example
`Bang StrKind = "Bang" // Override`: the carried value becomes the string
"Override", the generated `Defined()` consequently rejects `Bang`'s
actual value (the test `TestStrKind` expects it accepted), and the
staleness guard emitted from the carried value does not compile against
the unchanged source constant. -/
theorem c1_override_replaces_raw_value :
    findStringInLineComment ⟨"Bang", .str "Bang", 100, 21⟩ 50 [⟨120, 21, "Override\n"⟩]
      = some ("Override", ⟨"Bang", .str "Override", 100, 21⟩)
    ∧ GoVal.str "Override" ≠ GoVal.str "Bang"
    ∧ definedSem [⟨"Bang", .str "Override", 100, 21⟩] (.str "Bang") = false
    ∧ guardCompiles "Bang" "Override" = false
    ∧ exactString (.str "Override") ≠ exactString (.str "Bang") := by
  refine ⟨by decide, by decide, by decide, by decide, by decide⟩

/-- C2 counterexample: the first member's display string equals the
second member's identifier — two distinct members where one member's
display string equals another member's identifier — yet validation
succeeds, because the collision check only compares a display string
against identifiers seen earlier (root.go line 501). -/
theorem c2_counterexample :
    validateMembers [⟨"A", "B", "0"⟩, ⟨"B", "bee", "1"⟩] = .ok ()
    ∧ (VConst.mk "A" "B" "0").str = (VConst.mk "B" "bee" "1").name
    ∧ (VConst.mk "A" "B" "0") ≠ (VConst.mk "B" "bee" "1") := by
  refine ⟨by decide, by decide, by decide⟩

/-- C3: the claim (and the generated doc comment "Bytes returns a
byte-level representation of String()") requires the integral-kind
`Bytes()` output to decode as UTF-8 to the `String()` output.  The
generator emits each rune of the display string as a single byte literal
(root.go lines 706-712), so for the legal declaration `Café Kind = 0`
(identity strategy) the generated code compiles — every rune fits in a
byte — but returns the byte 233 where the UTF-8 encoding of "é" is the
two bytes 195, 169. -/
theorem c3_bytes_not_utf8_of_string :
    genStringInt "Kind" [⟨"Café", 0, "Café"⟩] 0 = "Café"
    ∧ genBytesInt "Kind" [⟨"Café", 0, "Café"⟩] 0 = [67, 97, 102, 233]
    ∧ utf8Bytes "Café" = [67, 97, 102, 195, 169]
    ∧ genBytesInt "Kind" [⟨"Café", 0, "Café"⟩] 0
        ≠ utf8Bytes (genStringInt "Kind" [⟨"Café", 0, "Café"⟩] 0)
    ∧ bytesCasesCompile [⟨"Café", 0, "Café"⟩] = true := by
  refine ⟨by decide, by decide, by decide, by decide, by decide⟩

/-- C5 counterexample: the single-member text-kind spec
`Foo StrKind = "bar"` (identity strategy, display string "Foo") satisfies
every validation invariant, `MarshalText` returns the byte form — the raw
value "bar", since no override exists — but `UnmarshalText` matches input
only against display strings, so the round trip fails with an error
instead of assigning the member back. -/
theorem c5_counterexample :
    validateMembers [⟨"Foo", "Foo", "\"bar\""⟩] = .ok ()
    ∧ genMarshalTextStrK [⟨"Foo", "bar", "Foo"⟩] "bar" = .ok (utf8Bytes "bar")
    ∧ genUnmarshalTextStrK "StrKind" [⟨"Foo", "bar", "Foo"⟩] (utf8Bytes "bar")
        = .error ⟨utf8Bytes "bar", "StrKind"⟩ := by
  refine ⟨by decide, by decide, by decide⟩

/-- C6 counterexample: the constant's line carries two comment groups at
or after the group start; the first trims to empty, the second trims to
"X".  The claim (spec section 4.3) selects the first such comment and,
its trimmed text being empty, falls back to the naming strategy — here
the identity, giving ("foo", false).  The code instead skips
empty-trimmed comments (root.go line 436) and returns ("X", true). -/
theorem c6_counterexample :
    resolveDisplay idTransforms "none" ⟨"foo", .int 0, 10, 5⟩ 0
        [⟨10, 5, "  "⟩, ⟨20, 5, " X "⟩] = ("X", true)
    ∧ goTrimRight (goTrimLeft "  ") = ""
    ∧ (0 : Nat) ≤ 10 ∧ (5 : Nat) = 5
    ∧ ("X", true) ≠ ("foo", false) := by
  refine ⟨by decide, by decide, by decide, by decide, by decide⟩

/-- C6 amended: the resolver returns the trimmed text (verbatim, override
flag true) of the first comment in file order whose start is at or after
the declaration group's start, that lies on the constant's source line,
AND whose trimmed text is non-empty; only when no such comment exists
does it return the naming-strategy transform of the identifier with
override flag false. -/
theorem c6_amended (tr : CaseTransforms) (strategy : String) (c : ConstBinding)
    (gdPos : Nat) (cms : List Comment) :
    resolveDisplay tr strategy c gdPos cms =
      match firstUsableComment c gdPos cms with
      | some cm => (goTrimRight (goTrimLeft cm.text), true)
      | none => (applyNamingStrategy tr strategy c.name, false) := by
  unfold resolveDisplay
  rw [findStringInLineComment_eq_find]
  cases firstUsableComment c gdPos cms with
  | none => rfl
  | some cm => rfl

/-- C10: for a naming-strategy value outside the six recognized names and
a constant without a usable override comment, the resolver applies the
identity transform — the display string is the identifier unchanged and
no error is possible (the dispatch has a silent default branch,
root.go lines 370-372). -/
theorem c10_unrecognized_strategy_is_identity (tr : CaseTransforms)
    (strategy : String) (c : ConstBinding) (gdPos : Nat) (cms : List Comment)
    (hov : findStringInLineComment c gdPos cms = none)
    (hs : strategy ∉ recognizedStrategies) :
    resolveDisplay tr strategy c gdPos cms = (c.name, false) := by
  simp only [recognizedStrategies, List.mem_cons, List.mem_singleton] at hs
  push_neg at hs
  obtain ⟨-, h1, h2, h3, h4, h5, -⟩ := hs
  unfold resolveDisplay
  rw [hov]
  simp [applyNamingStrategy, h1, h2, h3, h4, h5]

/-- Witness for C10 at a concrete input: strategy "bogus", no comments. -/
theorem c10_witness :
    resolveDisplay idTransforms "bogus" ⟨"KindX", .int 2, 0, 0⟩ 0 [] = ("KindX", false) :=
  c10_unrecognized_strategy_is_identity idTransforms "bogus" ⟨"KindX", .int 2, 0, 0⟩ 0 []
    rfl (by decide)

/-- Helper: the validation loop succeeds from arbitrary seen-sets exactly
when the remaining members are pairwise collision-free and none of them
collides with the seen-sets. -/
theorem validateLoop_ok_iff (cs : List VConst) (strs names vals : List String) :
    validateLoop cs strs names vals = .ok () ↔
      (List.Pairwise validOK cs ∧
        ∀ c ∈ cs, c.str ∉ strs ∧ c.name ∉ names ∧ c.str ∉ names ∧ c.repr ∉ vals) := by
  induction cs generalizing strs names vals with
  | nil => simp [validateLoop]
  | cons c rest ih =>
    unfold validateLoop
    by_cases h1 : c.str ∈ strs
    · rw [if_pos h1]
      exact ⟨fun h => Except.noConfusion h,
        fun h => absurd h1 (h.2 c (List.mem_cons_self _ _)).1⟩
    rw [if_neg h1]
    by_cases h2 : c.name ∈ names
    · rw [if_pos h2]
      exact ⟨fun h => Except.noConfusion h,
        fun h => absurd h2 (h.2 c (List.mem_cons_self _ _)).2.1⟩
    rw [if_neg h2]
    by_cases h3 : c.str ∈ names
    · rw [if_pos h3]
      exact ⟨fun h => Except.noConfusion h,
        fun h => absurd h3 (h.2 c (List.mem_cons_self _ _)).2.2.1⟩
    rw [if_neg h3]
    by_cases h4 : c.repr ∈ vals
    · rw [if_pos h4]
      exact ⟨fun h => Except.noConfusion h,
        fun h => absurd h4 (h.2 c (List.mem_cons_self _ _)).2.2.2⟩
    rw [if_neg h4, ih]
    constructor
    · rintro ⟨hp, hall⟩
      constructor
      · refine List.Pairwise.cons (fun b hb => ?_) hp
        obtain ⟨hs, hn, hsn, hr⟩ := hall b hb
        simp only [List.mem_cons, not_or] at hs hn hsn hr
        exact ⟨fun he => hn.1 he.symm, fun he => hs.1 he.symm,
          fun he => hr.1 he.symm, hsn.1⟩
      · intro b hb
        rcases List.mem_cons.mp hb with rfl | hb
        · exact ⟨h1, h2, h3, h4⟩
        · obtain ⟨hs, hn, hsn, hr⟩ := hall b hb
          simp only [List.mem_cons, not_or] at hs hn hsn hr
          exact ⟨hs.2, hn.2, hsn.2, hr.2⟩
    · rintro ⟨hp, hall⟩
      refine ⟨List.Pairwise.of_cons hp, fun b hb => ?_⟩
      have hvb : validOK c b := List.rel_of_pairwise_cons hp hb
      obtain ⟨hs, hn, hsn, hr⟩ := hall b (List.mem_cons_of_mem _ hb)
      simp only [List.mem_cons, not_or]
      exact ⟨⟨fun he => hvb.2.1 he.symm, hs⟩, ⟨fun he => hvb.1 he.symm, hn⟩,
        ⟨hvb.2.2.2, hsn⟩, ⟨fun he => hvb.2.2.1 he.symm, hr⟩⟩

/-- C2 amended: for the ordered sequence given to validation, generation
(validation plus synthesis) succeeds exactly when identifiers, display
strings and value renderings are pairwise distinct AND no member's
display string equals the identifier of an earlier member; whenever one
of those conditions is violated, generation fails with an error (carrying
the offending value) and produces no file.  (The original claim's
collision direction "a display string equals ANOTHER member's identifier"
is weakened to "an earlier member's identifier", as the counterexample
forces.) -/
theorem c2_validation_iff_pairwise (cs : List VConst) :
    (generateEnumCode cs = .ok cs ↔ List.Pairwise validOK cs)
    ∧ (¬ List.Pairwise validOK cs → ∃ e, generateEnumCode cs = .error e) := by
  have hloop := validateLoop_ok_iff cs [] [] []
  simp only [List.not_mem_nil, not_false_iff, and_self, implies_true, and_true] at hloop
  constructor
  · rw [← hloop]
    unfold generateEnumCode validateMembers
    cases h : validateLoop cs [] [] [] with
    | error e => simp
    | ok u => cases u; simp
  · intro hnp
    have : validateMembers cs ≠ .ok () := fun h => hnp (hloop.mp h)
    unfold generateEnumCode
    cases h : validateMembers cs with
    | error e => exact ⟨e, rfl⟩
    | ok u => exact absurd (by cases u; exact h) this

/-- Witness for C2 at a concrete input: a duplicated identifier makes
generation fail with an error. -/
theorem c2_witness :
    ∃ e, generateEnumCode [⟨"A", "A", "0"⟩, ⟨"A", "B", "1"⟩] = .error e :=
  (c2_validation_iff_pairwise [⟨"A", "A", "0"⟩, ⟨"A", "B", "1"⟩]).2 (by decide)

/-- Helper: with pairwise-distinct member values, the generated switch
(first matching case) dispatches the `i`-th member's value to index `i`. -/
theorem findIdx_cons_shape {V : Type} (p : Member V → Bool) (x : Member V)
    (xs : List (Member V)) :
    List.findIdx? p (x :: xs) = if p x then some 0 else (List.findIdx? p xs).map (· + 1) := by
  simp [List.findIdx?_cons]

theorem findIdx_val_self {V : Type} [DecidableEq V] (cs : List (Member V))
    (hnd : (cs.map Member.val).Nodup) (i : Nat) (hi : i < cs.length) :
    List.findIdx? (fun c => decide (c.val = (cs.get ⟨i, hi⟩).val)) cs = some i := by
  induction cs generalizing i with
  | nil => simp at hi
  | cons c rest ih =>
    simp only [List.map_cons, List.nodup_cons] at hnd
    cases i with
    | zero => simp [findIdx_cons_shape]
    | succ j =>
      have hj : j < rest.length := by simpa using hi
      have hget : (c :: rest).get ⟨j + 1, hi⟩ = rest.get ⟨j, hj⟩ := rfl
      have hne : ¬ (c.val = (rest.get ⟨j, hj⟩).val) := by
        intro he
        exact hnd.1 (he ▸ List.mem_map_of_mem Member.val (rest.get_mem _ _))
      rw [hget, findIdx_cons_shape]
      simp only [hne, decide_eq_true_eq, if_neg hne]
      rw [ih hnd.2 j hj]
      rfl

/-- Helper: the single-step behavior of the generated `Next()` on the
`i`-th declared member: it returns member `(i + 1) mod n`. -/
theorem genNext_step {V : Type} [DecidableEq V] (cs : List (Member V)) (h : cs ≠ [])
    (hnd : (cs.map Member.val).Nodup) (i : Nat) (hi : i < cs.length) :
    genNext cs h (cs.get ⟨i, hi⟩).val
      = (cs.get ⟨(i + 1) % cs.length, Nat.mod_lt _ (List.length_pos.mpr h)⟩).val := by
  unfold genNext
  rw [findIdx_val_self cs hnd i hi]
  dsimp only
  rw [List.getD_eq_getElem cs (cs.head h) (Nat.mod_lt _ (List.length_pos.mpr h))]
  rfl

/-- Helper: member values at equal indices agree. -/
theorem get_val_congr {V : Type} (cs : List (Member V)) (i j : Nat)
    (hi : i < cs.length) (hj : j < cs.length) (hij : i = j) :
    (cs.get ⟨i, hi⟩).val = (cs.get ⟨j, hj⟩).val := by
  subst hij
  rfl

/-- Helper: iterating the generated `Next()` `k` times from member `i`
lands on member `(i + k) mod n`. -/
theorem genNext_iterate {V : Type} [DecidableEq V] (cs : List (Member V)) (h : cs ≠ [])
    (hnd : (cs.map Member.val).Nodup) (k : Nat) :
    ∀ i (hi : i < cs.length),
      (genNext cs h)^[k] (cs.get ⟨i, hi⟩).val
        = (cs.get ⟨(i + k) % cs.length, Nat.mod_lt _ (List.length_pos.mpr h)⟩).val := by
  induction k with
  | zero =>
    intro i hi
    simp only [Function.iterate_zero, id_eq]
    exact get_val_congr cs _ _ _ _ (by rw [Nat.add_zero, Nat.mod_eq_of_lt hi])
  | succ k ihk =>
    intro i hi
    have hstep := genNext_step cs h hnd i hi
    have hlt : (i + 1) % cs.length < cs.length := Nat.mod_lt _ (List.length_pos.mpr h)
    calc (genNext cs h)^[k + 1] (cs.get ⟨i, hi⟩).val
        = (genNext cs h)^[k] (genNext cs h (cs.get ⟨i, hi⟩).val) := rfl
      _ = (genNext cs h)^[k] (cs.get ⟨(i + 1) % cs.length, hlt⟩).val := by rw [hstep]
      _ = (cs.get ⟨((i + 1) % cs.length + k) % cs.length,
            Nat.mod_lt _ (List.length_pos.mpr h)⟩).val := ihk _ hlt
      _ = (cs.get ⟨(i + (k + 1)) % cs.length,
            Nat.mod_lt _ (List.length_pos.mpr h)⟩).val := by
            refine get_val_congr cs _ _ _ _ ?_
            have hadd : i + 1 + k = i + (k + 1) := by omega
            rw [Nat.mod_add_mod, hadd]

/-- C4: for a validated spec (non-empty, pairwise-distinct member
values), the generated `Next()` maps the `i`-th declared member to member
`(i + 1) mod n` (so the last wraps to the first), maps every value
outside the declared set to the first declared member, never yields a
value outside the declared set, and applying it `n` times to any declared
member returns that member. -/
theorem c4_next_cyclic {V : Type} [DecidableEq V] (cs : List (Member V)) (h : cs ≠ [])
    (hnd : (cs.map Member.val).Nodup) :
    (∀ i (hi : i < cs.length),
        genNext cs h (cs.get ⟨i, hi⟩).val
          = (cs.get ⟨(i + 1) % cs.length, Nat.mod_lt _ (List.length_pos.mpr h)⟩).val)
    ∧ (∀ v, (∀ c ∈ cs, c.val ≠ v) → genNext cs h v = (cs.head h).val)
    ∧ (∀ v, genNext cs h v ∈ cs.map Member.val)
    ∧ (∀ i (hi : i < cs.length),
        (genNext cs h)^[cs.length] (cs.get ⟨i, hi⟩).val = (cs.get ⟨i, hi⟩).val) := by
  refine ⟨genNext_step cs h hnd, ?_, ?_, ?_⟩
  · intro v hv
    unfold genNext
    have hnone : List.findIdx? (fun c => decide (c.val = v)) cs = none := by
      rw [List.findIdx?_eq_none_iff]
      intro c hc
      simp [hv c hc]
    rw [hnone]
  · intro v
    unfold genNext
    cases hfi : List.findIdx? (fun c => decide (c.val = v)) cs with
    | none => exact List.mem_map_of_mem Member.val (List.head_mem h)
    | some i =>
      have hlt : (i + 1) % cs.length < cs.length :=
        Nat.mod_lt _ (List.length_pos.mpr h)
      dsimp only
      rw [List.getD_eq_getElem cs (cs.head h) hlt]
      exact List.mem_map_of_mem Member.val (List.getElem_mem hlt)
  · intro i hi
    rw [genNext_iterate cs h hnd cs.length i hi]
    exact get_val_congr cs _ _ _ _ (by rw [Nat.add_mod_right, Nat.mod_eq_of_lt hi])

/-- Witness for C4 at a concrete three-member integral spec. -/
theorem c4_witness :
    genNext [⟨"A", (0 : Int), "A"⟩, ⟨"B", 1, "B"⟩, ⟨"C", 2, "C"⟩] (by decide) 2 = 0
    ∧ genNext [⟨"A", (0 : Int), "A"⟩, ⟨"B", 1, "B"⟩, ⟨"C", 2, "C"⟩] (by decide) 7 = 0
    ∧ (genNext [⟨"A", (0 : Int), "A"⟩, ⟨"B", 1, "B"⟩, ⟨"C", 2, "C"⟩] (by decide))^[3] 1 = 1 := by
  have h := c4_next_cyclic [⟨"A", (0 : Int), "A"⟩, ⟨"B", 1, "B"⟩, ⟨"C", 2, "C"⟩]
    (by decide) (by decide)
  refine ⟨?_, ?_, ?_⟩
  · exact h.1 2 (by decide)
  · exact h.2.1 7 (by decide)
  · exact h.2.2.2 1 (by decide)

/-- Candidate soundness invariant of the locator scan: whenever a
candidate type is held, it is a named type in the requested file at or
after the requested line, and `closest` is its line. -/
def retSound (f : String) (line : Nat) (s : LocState) : Prop :=
  ∀ t, s.ret = some t → t.isType = true ∧ t.file = f ∧ line ≤ t.line ∧ s.closest = t.line

/-- Helper: exhaustive description of one scan step. -/
theorem locStep_cases (f : String) (line : Nat) (s : LocState) (o : DefObj) :
    locStep f line s o = s ∨
      (locStep f line s o = ⟨some o, some o, o.line⟩ ∧ o.isType = true ∧
        o.file = f ∧ line ≤ o.line ∧ o.line ≤ s.closest) ∨
      locStep f line s o = ⟨none, some o, s.closest⟩ := by
  unfold locStep
  by_cases h1 : o.file ≠ f
  · exact Or.inl (if_pos h1)
  · rw [if_neg h1]
    by_cases h2 : o.line < line ∨ s.closest < o.line
    · exact Or.inl (if_pos h2)
    · rw [if_neg h2]
      push_neg at h2
      by_cases h3 : o.isType = true
      · exact Or.inr (Or.inl ⟨if_pos h3, h3, not_not.mp h1, h2.1, h2.2⟩)
      · exact Or.inr (Or.inr (if_neg h3))

/-- Helper: one scan step preserves candidate soundness. -/
theorem locStep_retSound (f : String) (line : Nat) (s : LocState) (o : DefObj)
    (hs : retSound f line s) : retSound f line (locStep f line s o) := by
  intro t ht
  rcases locStep_cases f line s o with heq | ⟨heq, h3, hf, hl, -⟩ | heq
  · rw [heq] at ht ⊢
    exact hs t ht
  · rw [heq] at ht ⊢
    have hot : some o = some t := ht
    injection hot with hot
    subst hot
    exact ⟨h3, hf, hl, rfl⟩
  · rw [heq] at ht
    exact absurd ht (by simp)

/-- Helper: the scan's `closest` value never increases. -/
theorem locStep_closest_le (f : String) (line : Nat) (s : LocState) (o : DefObj) :
    (locStep f line s o).closest ≤ s.closest := by
  rcases locStep_cases f line s o with heq | ⟨heq, -, -, -, hle⟩ | heq <;> rw [heq]
  exact hle

/-- Helper: over a whole scan, `closest` never increases. -/
theorem foldl_closest_le_init (f : String) (line : Nat) (objs : List DefObj) :
    ∀ s : LocState, (objs.foldl (locStep f line) s).closest ≤ s.closest := by
  induction objs with
  | nil => intro s; exact Nat.le_refl _
  | cons x rest ih =>
    intro s
    rw [List.foldl_cons]
    exact Nat.le_trans (ih (locStep f line s x)) (locStep_closest_le f line s x)

/-- Helper: after the scan, `closest` is at most the line of every
qualifying named-type binding that was scanned. -/
theorem foldl_closest_min (f : String) (line : Nat) (objs : List DefObj) :
    ∀ (s : LocState) (o : DefObj), o ∈ objs → o.isType = true → o.file = f →
      line ≤ o.line → (objs.foldl (locStep f line) s).closest ≤ o.line := by
  induction objs with
  | nil =>
    intro s o ho
    simp at ho
  | cons x rest ih =>
    intro s o ho h1 h2 h3
    rw [List.foldl_cons]
    rcases List.mem_cons.mp ho with rfl | ho
    · have hstep : (locStep f line s o).closest ≤ o.line := by
        unfold locStep
        have hf : ¬ o.file ≠ f := by simp [h2]
        rw [if_neg hf]
        by_cases hskip : o.line < line ∨ s.closest < o.line
        · rw [if_pos hskip]
          rcases hskip with h | h
          · omega
          · exact Nat.le_of_lt h
        · rw [if_neg hskip, if_pos h1]
      exact Nat.le_trans (foldl_closest_le_init f line rest _) hstep
    · exact ih _ o ho h1 h2 h3

/-- Helper: a scan in which no binding qualifies (same file, at or after
the line) leaves the state untouched. -/
theorem foldl_no_qualifying (f : String) (line : Nat) (objs : List DefObj) :
    ∀ s, (∀ o ∈ objs, ¬(o.file = f ∧ line ≤ o.line)) →
      objs.foldl (locStep f line) s = s := by
  induction objs with
  | nil =>
    intro s _
    rfl
  | cons x rest ih =>
    intro s h
    rw [List.foldl_cons]
    have hx : locStep f line s x = s := by
      unfold locStep
      by_cases hf : x.file ≠ f
      · rw [if_pos hf]
      · have hfeq : x.file = f := not_not.mp hf
        have hq := h x (List.mem_cons_self _ _)
        have hlt : x.line < line := by
          by_contra hle
          push_neg at hle
          exact hq ⟨hfeq, hle⟩
        rw [if_neg hf, if_pos (Or.inl hlt)]
    rw [hx]
    exact ih s (fun o ho => h o (List.mem_cons_of_mem _ ho))

/-- Helper: candidate soundness is preserved along a whole scan. -/
theorem foldl_retSound (f : String) (line : Nat) (objs : List DefObj) :
    ∀ s, retSound f line s → retSound f line (objs.foldl (locStep f line) s) := by
  induction objs with
  | nil =>
    intro s hs
    exact hs
  | cons x rest ih =>
    intro s hs
    rw [List.foldl_cons]
    exact ih _ (locStep_retSound f line s x hs)

/-- Helper: the finish step succeeds exactly on the held candidate. -/
theorem locFinish_ok_iff (s : LocState) (t : DefObj) :
    locFinish s = .ok t ↔ s.ret = some t := by
  unfold locFinish
  cases hr : s.ret with
  | some u => simp
  | none => cases s.closestObject <;> simp

/-- C7 amended: the locator never returns a non-type binding; any binding
it returns is a named type in the requested file at or after the
requested line whose line number is minimal among all qualifying
named-type bindings; and it fails with a ResolutionError when no binding
in that file lies at or after the line.  (The original claim's guarantee
that it always fails when the CLOSEST qualifying binding is not a named
type is dropped: the unspecified map scan order decides that case, see
the counterexample.) -/
theorem c7_locator_guarantees (f : String) (line : Nat) (objs : List DefObj) :
    (∀ t, findTypeDeclByPosition f line objs = .ok t →
        t.isType = true ∧ t.file = f ∧ line ≤ t.line ∧
        ∀ o ∈ objs, o.isType = true → o.file = f → line ≤ o.line → t.line ≤ o.line)
    ∧ ((∀ o ∈ objs, ¬(o.file = f ∧ line ≤ o.line)) →
        findTypeDeclByPosition f line objs = .error .noDecl) := by
  constructor
  · intro t ht
    unfold findTypeDeclByPosition at ht
    have hr : (objs.foldl (locStep f line) ⟨none, none, maxInt32⟩).ret = some t :=
      (locFinish_ok_iff _ t).mp ht
    have hsound := foldl_retSound f line objs ⟨none, none, maxInt32⟩
      (fun u hu => absurd hu (by simp)) t hr
    obtain ⟨h1, h2, h3, hcl⟩ := hsound
    refine ⟨h1, h2, h3, fun o ho ho1 ho2 ho3 => ?_⟩
    have hmin := foldl_closest_min f line objs ⟨none, none, maxInt32⟩ o ho ho1 ho2 ho3
    omega
  · intro h
    unfold findTypeDeclByPosition
    rw [foldl_no_qualifying f line objs _ h]
    rfl

/-- Witness for C7: a single qualifying type declaration is returned and
satisfies the stated guarantees. -/
theorem c7_witness :
    (DefObj.mk "a.go" 5 true 2).isType = true
    ∧ (DefObj.mk "a.go" 5 true 2).file = "a.go"
    ∧ 1 ≤ (DefObj.mk "a.go" 5 true 2).line
    ∧ ∀ o ∈ [DefObj.mk "a.go" 5 true 2], o.isType = true → o.file = "a.go" →
        1 ≤ o.line → (DefObj.mk "a.go" 5 true 2).line ≤ o.line :=
  (c7_locator_guarantees "a.go" 1 [⟨"a.go", 5, true, 2⟩]).1 ⟨"a.go", 5, true, 2⟩ (by decide)

/-- C7 counterexample: with scan order non-type-at-line-3 first, then
type-at-line-5, both qualifying from line 1, the code returns the type at
line 5 even though the closest qualifying binding (line 3) is not a named
type — the claim requires failure with a ResolutionError identifying that
binding. -/
theorem c7_counterexample :
    findTypeDeclByPosition "a.go" 1 [⟨"a.go", 3, false, 1⟩, ⟨"a.go", 5, true, 2⟩]
      = .ok ⟨"a.go", 5, true, 2⟩
    ∧ (DefObj.mk "a.go" 3 false 1).file = "a.go"
    ∧ 1 ≤ (DefObj.mk "a.go" 3 false 1).line
    ∧ (DefObj.mk "a.go" 3 false 1).line < (DefObj.mk "a.go" 5 true 2).line
    ∧ (DefObj.mk "a.go" 3 false 1).isType = false := by
  refine ⟨by decide, by decide, by decide, by decide, by decide⟩

/-- C8: when constant discovery returns an empty set, the run fails with
an error naming the resolved type, and code synthesis (which only runs in
the non-empty branch) is never invoked: a successful run implies the set
was non-empty. -/
theorem c8_empty_set_fails (tn : String) (vs : List VConst) :
    (vs = [] → runAfterDiscovery tn vs = .error (.noConstants tn))
    ∧ (∀ r, runAfterDiscovery tn vs = .ok r → vs ≠ []) := by
  constructor
  · rintro rfl
    rfl
  · rintro r hr rfl
    exact Except.noConfusion hr

/-- Witness for C8 at a concrete type name and the empty set. -/
theorem c8_witness :
    runAfterDiscovery "Kind" [] = .error (.noConstants "Kind") :=
  (c8_empty_set_fails "Kind" []).1 rfl

/-- Helper: the `sort.Slice` comparator is the strict lexicographic order
on the (file, offset) key. -/
theorem goPosLess_iff (a b : DiscConst) : goPosLess a b ↔ posKey a < posKey b := by
  rw [posKey, posKey, Prod.Lex.lt_iff]
  rfl

/-- Helper: the sorted-output order is the non-strict lexicographic order
on the (file, offset) key. -/
theorem sortLE_iff (a b : DiscConst) : sortLE a b ↔ posKey a ≤ posKey b := by
  unfold sortLE
  rw [goPosLess_iff, not_lt]

instance : IsTrans DiscConst sortLE :=
  ⟨fun a b c hab hbc =>
    (sortLE_iff a c).mpr (le_trans ((sortLE_iff a b).mp hab) ((sortLE_iff b c).mp hbc))⟩

instance : IsTotal DiscConst sortLE :=
  ⟨fun a b =>
    (le_total (posKey a) (posKey b)).imp (sortLE_iff a b).mpr (sortLE_iff b a).mpr⟩

/-- Helper: the sorted-output order implies the spec's ascending
(file, byte offset) order. -/
theorem posLE_of_sortLE (a b : DiscConst) (h : sortLE a b) : posLE a b := by
  have hk := (sortLE_iff a b).mp h
  rw [posKey, posKey, Prod.Lex.le_iff] at hk
  exact hk

/-- C9: the constant sequence handed to validation and synthesis is a
permutation of the discovered constants, sorted ascending by (file name,
byte offset) of each constant's declaration position — so any two members
appear in the order of their declaration positions. -/
theorem c9_sorted_by_position (cs : List DiscConst) :
    List.Pairwise posLE (sortConstants cs) ∧ List.Perm (sortConstants cs) cs := by
  constructor
  · exact (List.sorted_insertionSort sortLE cs).imp (fun h => posLE_of_sortLE _ _ h)
  · exact List.perm_insertionSort sortLE cs

/-- Helper: every scalar value is below 0x110000. -/
theorem char_toNat_lt (c : Char) : c.toNat < 1114112 := by
  rcases c.valid with h | h
  · exact Nat.lt_trans h (by norm_num)
  · exact h.2

/-- Helper: equal scalar values give equal characters. -/
theorem char_toNat_inj {c1 c2 : Char} (h : c1.toNat = c2.toNat) : c1 = c2 :=
  Char.ext (UInt32.ext h)

/-- Helper: the UTF-8 encoder never produces the empty byte list. -/
theorem utf8EncodeCharNat_ne_nil (c : Char) : utf8EncodeCharNat c ≠ [] := by
  simp only [utf8EncodeCharNat]
  split_ifs <;> simp

/-- Helper: UTF-8 is a prefix code — equal byte streams starting with an
encoded character agree on that character and on the remainder. -/
theorem utf8EncodeCharNat_append_inj (c1 c2 : Char) (r1 r2 : List Nat)
    (h : utf8EncodeCharNat c1 ++ r1 = utf8EncodeCharNat c2 ++ r2) :
    c1 = c2 ∧ r1 = r2 := by
  have hb1 : c1.toNat < 1114112 := char_toNat_lt c1
  have hb2 : c2.toNat < 1114112 := char_toNat_lt c2
  simp only [utf8EncodeCharNat] at h
  split_ifs at h <;>
    simp only [List.cons_append, List.nil_append, List.cons.injEq] at h <;>
    [skip; omega; omega; omega; omega; skip; omega; omega; omega; omega;
      skip; omega; omega; omega; omega; skip] <;>
    exact ⟨char_toNat_inj (by omega), by tauto⟩

/-- Helper: UTF-8 encoding of character lists is injective. -/
theorem utf8flat_inj (l1 : List Char) : ∀ l2 : List Char,
    (l1.map utf8EncodeCharNat).flatten = (l2.map utf8EncodeCharNat).flatten → l1 = l2 := by
  induction l1 with
  | nil =>
    intro l2 h
    cases l2 with
    | nil => rfl
    | cons c t =>
      simp only [List.map_nil, List.flatten_nil, List.map_cons, List.flatten_cons] at h
      exact absurd (List.append_eq_nil.mp h.symm).1 (utf8EncodeCharNat_ne_nil c)
  | cons c t ih =>
    intro l2 h
    cases l2 with
    | nil =>
      simp only [List.map_nil, List.flatten_nil, List.map_cons, List.flatten_cons] at h
      exact absurd (List.append_eq_nil.mp h).1 (utf8EncodeCharNat_ne_nil c)
    | cons c2 t2 =>
      simp only [List.map_cons, List.flatten_cons] at h
      obtain ⟨hc, hr⟩ := utf8EncodeCharNat_append_inj c c2 _ _ h
      rw [hc, ih t2 hr]

/-- Helper: `utf8Bytes` is injective. -/
theorem utf8Bytes_injective {s1 s2 : String} (h : utf8Bytes s1 = utf8Bytes s2) :
    s1 = s2 :=
  String.ext (utf8flat_inj s1.data s2.data h)

/-- Helper: when exactly one element of a list satisfies a predicate,
`find?` returns it. -/
theorem find?_unique {α : Type} (p : α → Bool) (l : List α) (m : α) (hm : m ∈ l)
    (hpm : p m = true) (huniq : ∀ c ∈ l, p c = true → c = m) :
    l.find? p = some m := by
  induction l with
  | nil => simp at hm
  | cons x t ih =>
    by_cases hx : p x = true
    · rw [List.find?_cons_of_pos _ hx, huniq x (List.mem_cons_self _ _) hx]
    · rw [List.find?_cons_of_neg _ (by simpa using hx)]
      have hmt : m ∈ t := by
        rcases List.mem_cons.mp hm with rfl | hmt
        · exact absurd hpm hx
        · exact hmt
      exact ih hmt (fun c hc hpc => huniq c (List.mem_cons_of_mem _ hc) hpc)

/-- C5 amended: for a text-kind member sequence with pairwise-distinct
display strings and pairwise-distinct raw values (the validated-spec
invariants), the generated `MarshalText` always succeeds with the byte
form; the round trip `UnmarshalText (MarshalText m)` assigns exactly `m`
for every member whose display string equals its raw value, and — when
any member's display string differs from its identifier — also for every
member whose own display string differs from its identifier; and
`UnmarshalText` of bytes matching no member's display string fails with
the error carrying the raw input and the target type's name.  (The
original claim's unconditional round trip fails for text-kind members
whose display string differs from their raw value but not from their
identifier, as the counterexample forces.) -/
theorem c5_text_roundtrip (tn : String) (cs : List (Member String))
    (hstr : (cs.map Member.str).Nodup) (hval : (cs.map Member.val).Nodup) :
    (∀ m ∈ cs, genMarshalTextStrK cs m.val = .ok (genBytesStrK cs m.val))
    ∧ (∀ m ∈ cs, (m.str = m.val ∨ (anyOverride cs = true ∧ m.name ≠ m.str)) →
        genUnmarshalTextStrK tn cs (genBytesStrK cs m.val) = .ok m.val)
    ∧ (∀ b, (∀ c ∈ cs, utf8Bytes c.str ≠ b) →
        genUnmarshalTextStrK tn cs b = .error ⟨b, tn⟩) := by
  refine ⟨fun m _ => rfl, ?_, ?_⟩
  · intro m hm hcond
    have hbytes : genBytesStrK cs m.val = utf8Bytes m.str := by
      unfold genBytesStrK
      by_cases hov : anyOverride cs = true
      · rw [if_pos hov]
        by_cases hnm : m.name = m.str
        · have hsv : m.str = m.val := by
            rcases hcond with h | ⟨-, hne⟩
            · exact h
            · exact absurd hnm hne
          have hnone : List.find? (fun c => decide (c.val = m.val))
              (cs.filter (fun c => decide (c.name ≠ c.str))) = none := by
            rw [List.find?_eq_none]
            intro c hc
            have hcm := List.mem_of_mem_filter hc
            have hcp := List.of_mem_filter hc
            simp only [decide_eq_true_eq] at hcp
            simp only [decide_eq_true_eq, Decidable.not_not]
            intro hcv
            exact hcp (by rw [List.inj_on_of_nodup_map hval hcm hm hcv, hnm])
          rw [hnone, ← hsv]
        · have hfind : List.find? (fun c => decide (c.val = m.val))
              (cs.filter (fun c => decide (c.name ≠ c.str))) = some m := by
            apply find?_unique _ _ m
            · exact List.mem_filter.mpr ⟨hm, by simp [hnm]⟩
            · simp
            · intro c hc hpc
              simp only [decide_eq_true_eq] at hpc
              exact List.inj_on_of_nodup_map hval (List.mem_of_mem_filter hc) hm hpc
          rw [hfind]
      · rw [if_neg hov]
        have hsv : m.str = m.val := by
          rcases hcond with h | ⟨hovt, -⟩
          · exact h
          · exact absurd hovt hov
        rw [← hsv]
    rw [hbytes]
    unfold genUnmarshalTextStrK
    rw [find?_unique _ cs m hm (by simp) ?_]
    · intro c hc hpc
      simp only [decide_eq_true_eq] at hpc
      exact List.inj_on_of_nodup_map hstr hc hm (utf8Bytes_injective hpc)
  · intro b hb
    unfold genUnmarshalTextStrK
    rw [List.find?_eq_none.mpr (fun c hc => by simp [hb c hc])]

/-- Witness for C5 on the repository's own example members
(`Hello`, `World`, `Bang` with override "Override"): the overridden
member round-trips. -/
theorem c5_witness :
    genUnmarshalTextStrK "StrKind"
      [⟨"Hello", "Hello", "Hello"⟩, ⟨"World", "World", "World"⟩, ⟨"Bang", "Bang", "Override"⟩]
      (genBytesStrK
        [⟨"Hello", "Hello", "Hello"⟩, ⟨"World", "World", "World"⟩, ⟨"Bang", "Bang", "Override"⟩]
        "Bang") = .ok "Bang" :=
  (c5_text_roundtrip "StrKind"
      [⟨"Hello", "Hello", "Hello"⟩, ⟨"World", "World", "World"⟩, ⟨"Bang", "Bang", "Override"⟩]
      (by decide) (by decide)).2.1
    ⟨"Bang", "Bang", "Override"⟩ (by decide) (Or.inr ⟨by decide, by decide⟩)

end GoEnumerator
